import Mathlib

/-!
Shallow embedding of the reaction-network core of `KingAltmann.py`.

Enzyme states and rate constants are sympy symbols in the source; two
symbols created from the same name are equal, so both are embedded as
strings compared by name. `ReactionRate.__eq__` compares the name only;
the optional pseudo-first-order reactant is display-only. Python
exceptions (`AttributeError`, `IndexError`) are embedded as an `Err`
value; a method that can raise returns `Except Err`. Raising a Python
exception does not roll back mutations already performed, so the
mutation path of `addReaction` is embedded as `addReactionSt`, which
returns the post-call state together with the raised error, and the
`Except`-valued `addReaction` is derived from it.
-/

namespace KingAltmann

structure Enzymestate where
  name : String
deriving DecidableEq

/-- Embedding of `Enzymestate.__eq__`: sympy-symbol equality is name equality. -/
def esEq (a b : Enzymestate) : Bool := a.name == b.name

structure ReactionRate where
  name : String
  reactant : Option String
deriving DecidableEq

/-- Embedding of `ReactionRate.__eq__`: only the name matters, the reactant is ignored. -/
def rrEq (a b : ReactionRate) : Bool := a.name == b.name

/-- Embedding of `ReactionRate.__str__`. -/
def ReactionRate.toStr (r : ReactionRate) : String :=
  match r.reactant with
  | some rc => r.name ++ "[" ++ rc ++ "]"
  | none => r.name

structure UnitReaction where
  from_state : Enzymestate
  rate : ReactionRate
  to_state : Enzymestate
deriving DecidableEq

/-- Embedding of `UnitReaction.__eq__`: all three fields, each by its own equality
(so the rate's reactant annotation is still ignored). -/
def urEq (a b : UnitReaction) : Bool :=
  esEq a.from_state b.from_state && esEq a.to_state b.to_state && rrEq a.rate b.rate

structure BiDirReaction where
  fwd_reaction : UnitReaction
  rev_reaction : UnitReaction
deriving DecidableEq

/-- Embedding of `BiDirReaction.contains_Rate` (a `None` argument yields `False`). -/
def BiDirReaction.contains_Rate (b : BiDirReaction) (rate : Option ReactionRate) : Bool :=
  match rate with
  | none => false
  | some r => rrEq r b.fwd_reaction.rate || rrEq r b.rev_reaction.rate

/-- Embedding of `BiDirReaction.contains_reaction`. -/
def BiDirReaction.contains_reaction (b : BiDirReaction) (reaction : Option UnitReaction) : Bool :=
  match reaction with
  | none => false
  | some r => urEq r b.fwd_reaction || urEq r b.rev_reaction

/-- Embedding of `BiDirReaction.__str__`: renders `fwdRate//revRate`. -/
def BiDirReaction.toStr (b : BiDirReaction) : String :=
  b.fwd_reaction.rate.toStr ++ "//" ++ b.rev_reaction.rate.toStr

/-- Python exceptions raised by the core, by the spec's names; `indexError` is the
`IndexError` raised by `list(filter(...))[0]` in `linear_graph_matrix`. -/
inductive Err where
  | duplicateRate
  | multipleReverseReactions
  | multipleMatchingReactions
  | indexError
deriving DecidableEq

structure Reactions where
  reactions : List UnitReaction
  enzymeStates : List Enzymestate
  bidirectionalRates : List BiDirReaction
deriving DecidableEq

/-- State of a freshly constructed `Reactions()` object. -/
def Reactions.empty : Reactions := ⟨[], [], []⟩

/-- Embedding of `Reactions.reaction_from_Rate`. -/
def Reactions.reaction_from_Rate (net : Reactions) (rate : ReactionRate) : List UnitReaction :=
  net.reactions.filter (fun reac => rrEq reac.rate rate)

/-- Embedding of `Reactions.consumed_by`. -/
def Reactions.consumed_by (net : Reactions) (e : Enzymestate) : List UnitReaction :=
  net.reactions.filter (fun react => esEq react.from_state e)

/-- Embedding of `Reactions.produced_by`. -/
def Reactions.produced_by (net : Reactions) (e : Enzymestate) : List UnitReaction :=
  net.reactions.filter (fun react => esEq react.to_state e)

/-- Embedding of `Reactions.reverse_Reaction`. -/
def Reactions.reverse_Reaction (net : Reactions) (reaction : UnitReaction) :
    Except Err (Option UnitReaction) :=
  let reactions := net.consumed_by reaction.to_state
  let reverseReact := reactions.filter (fun react => esEq react.to_state reaction.from_state)
  match reverseReact with
  | [] => .ok none
  | [r] => .ok (some r)
  | _ => .error .multipleReverseReactions

/-- Embedding of `Reactions.reaction_from_Reactants`. -/
def Reactions.reaction_from_Reactants (net : Reactions) (from_state to_state : Enzymestate) :
    Except Err (Option UnitReaction) :=
  match net.reactions.filter
      (fun reaction => esEq reaction.from_state from_state && esEq reaction.to_state to_state) with
  | [] => .ok none
  | [r] => .ok (some r)
  | _ => .error .multipleMatchingReactions

/-- Embedding of `Reactions._add_enzymeStates`: appends `from_state` then `to_state`
to `enzymeStates` when not already present. -/
def Reactions.add_enzymeStates (net : Reactions) (u : UnitReaction) : Reactions :=
  let newStates :=
    [u.from_state, u.to_state].foldl
      (fun states e => if states.any (fun x => esEq e x) then states else states ++ [e])
      net.enzymeStates
  { net with enzymeStates := newStates }

/-- Embedding of `Reactions._add_bidirectionalRates`; returns the post-call state
and the raised error, if any. -/
def Reactions.add_bidirectionalRates (net : Reactions) (reaction : UnitReaction) :
    Reactions × Option Err :=
  if net.bidirectionalRates.any (fun bi => bi.contains_reaction (some reaction)) then
    (net, some .duplicateRate)
  else
    match net.reverse_Reaction reaction with
    | .error e => (net, some e)
    | .ok none => (net, none)
    | .ok (some reverseReaction) =>
        ({ net with bidirectionalRates :=
            net.bidirectionalRates ++ [⟨reaction, reverseReaction⟩] }, none)

/-- Embedding of `Reactions.addReaction`, keeping the state reached when an
exception escapes (Python mutations are not rolled back). -/
def Reactions.addReactionSt (net : Reactions) (reaction : UnitReaction) :
    Reactions × Option Err :=
  if (net.reaction_from_Rate reaction.rate).length > 0 then
    (net, some .duplicateRate)
  else
    let net1 : Reactions := { net with reactions := net.reactions ++ [reaction] }
    let net2 := net1.add_enzymeStates reaction
    net2.add_bidirectionalRates reaction

/-- `addReaction` seen as a fallible operation. -/
def Reactions.addReaction (net : Reactions) (reaction : UnitReaction) : Except Err Reactions :=
  match net.addReactionSt reaction with
  | (net', none) => .ok net'
  | (_, some e) => .error e

/-- Replays `addReaction` calls in order starting from a given network,
stopping at the first exception (the spec's fatal-error policy). -/
def replayFrom (net : Reactions) : List UnitReaction → Except Err Reactions
  | [] => .ok net
  | r :: rs =>
    match net.addReaction r with
    | .ok net' => replayFrom net' rs
    | .error e => .error e

/-- Replays `addReaction` calls on a fresh `Reactions()`. -/
def replay (rs : List UnitReaction) : Except Err Reactions :=
  replayFrom Reactions.empty rs

/-- Exception-propagating map over a list, embedding a Python `for` loop whose
body may raise: the first exception aborts the whole loop. -/
def mapExc {α β : Type} (f : α → Except Err β) : List α → Except Err (List β)
  | [] => .ok []
  | a :: l =>
    match f a with
    | .error e => .error e
    | .ok b =>
      match mapExc f l with
      | .error e => .error e
      | .ok bs => .ok (b :: bs)

/-- Embedding of `Reactions.kinetic_matrix`: one cell per ordered pair of
`enzymeStates`, row-major, each cell the rate of the unique connecting reaction. -/
def Reactions.kinetic_matrix (net : Reactions) : Except Err (List (List (Option ReactionRate))) :=
  mapExc (fun es1 =>
    mapExc (fun es2 =>
      match net.reaction_from_Reactants es1 es2 with
      | .error e => .error e
      | .ok reac => .ok (reac.map (fun x => x.rate))) net.enzymeStates) net.enzymeStates

/-- Embedding of `Reactions.linear_graph_matrix`: for each present kinetic cell,
`list(filter(contains_Rate, bidirectionalRates))[0]`, whose `[0]` raises
`IndexError` when no bidirectional edge contains the rate. The Python loops
run over indices of `enzymeStates`; since the kinetic matrix has exactly one
row per enzyme state and one cell per state pair, mapping over its rows visits
the same cells in the same order. -/
def Reactions.linear_graph_matrix (net : Reactions) :
    Except Err (List (List (Option BiDirReaction))) :=
  match net.kinetic_matrix with
  | .error e => .error e
  | .ok kin_matrix =>
    mapExc (fun row =>
      mapExc (fun cell =>
        match cell with
        | none => .ok none
        | some rate =>
          match net.bidirectionalRates.filter
              (fun biDirect => biDirect.contains_Rate (some rate)) with
          | [] => .error Err.indexError
          | b :: _ => .ok (some b)) row) kin_matrix

/-! Spec-side comparison definitions. -/

/-- Modelled from the spec: for R = (A, rate, B), the existing reactions with
fromState = B and toState = A (the reverse candidates `reverseReaction` considers). -/
def reverseCandidates (net : Reactions) (r : UnitReaction) : List UnitReaction :=
  net.reactions.filter
    (fun x => decide (x.from_state = r.to_state ∧ x.to_state = r.from_state))

/-- Modelled from the spec: the reactions with the given ordered endpoints,
the matches `reactionFromStates` considers. -/
def reactionsBetween (net : Reactions) (f t : Enzymestate) : List UnitReaction :=
  net.reactions.filter (fun x => decide (x.from_state = f ∧ x.to_state = t))

/-- Keeps the first occurrence of each state, dropping later duplicates. -/
def insertUniqueState (acc : List Enzymestate) (e : Enzymestate) : List Enzymestate :=
  if e ∈ acc then acc else acc ++ [e]

/-- Modelled from the spec: the order in which new state names are first
encountered while replaying the calls in input order. -/
def firstSeen (l : List Enzymestate) : List Enzymestate :=
  l.foldl insertUniqueState []

/-- The states referenced by a reaction sequence, in encounter order
(source before destination within each call). -/
def statesSeq (rs : List UnitReaction) : List Enzymestate :=
  rs.flatMap (fun r => [r.from_state, r.to_state])

/-- Number of bidirectional edges having the given reaction as a leg. -/
def edgeCount (net : Reactions) (r : UnitReaction) : Nat :=
  net.bidirectionalRates.countP (fun b => b.contains_reaction (some r))

/-! Predicates used by the invariant proofs. -/

/-- Two reactions with the same ordered endpoints. -/
abbrev samePair (a b : UnitReaction) : Prop :=
  a.from_state = b.from_state ∧ a.to_state = b.to_state

/-- `a` runs between `b`'s endpoints in the opposite direction. -/
abbrev reverses (a b : UnitReaction) : Prop :=
  a.from_state = b.to_state ∧ a.to_state = b.from_state

/-- No registered reaction shares the given reaction's ordered endpoints. -/
def pairFresh (net : Reactions) (r : UnitReaction) : Prop :=
  ∀ x ∈ net.reactions, ¬samePair x r

/-- No registered reaction shares the given reaction's rate name. -/
def rateFresh (net : Reactions) (r : UnitReaction) : Prop :=
  ∀ x ∈ net.reactions, x.rate.name ≠ r.rate.name

/-- Each leg of every edge carries a registered rate name, and the legs of an
edge run between the same two states in opposite directions. -/
def edgeWf (net : Reactions) : Prop :=
  ∀ b ∈ net.bidirectionalRates,
    (∃ x ∈ net.reactions, x.rate.name = b.fwd_reaction.rate.name) ∧
    (∃ x ∈ net.reactions, x.rate.name = b.rev_reaction.rate.name) ∧
    reverses b.rev_reaction b.fwd_reaction

/-- Invariant carried through `addReaction` when no two reactions share an
ordered state pair: each reaction lies in exactly one edge when its reverse is
registered and in none otherwise. -/
def Inv (net : Reactions) : Prop :=
  net.reactions.Pairwise (fun a b => ¬samePair a b) ∧
  edgeWf net ∧
  ∀ r ∈ net.reactions,
    edgeCount net r = if net.reactions.any (fun x => decide (reverses x r)) then 1 else 0

/-! Concrete networks used in the evaluations and witnesses. -/

def stE : Enzymestate := ⟨"E"⟩

def stEA : Enzymestate := ⟨"EA"⟩

def rateK1 : ReactionRate := ⟨"k1", none⟩

def rateKm1 : ReactionRate := ⟨"k-1", none⟩

/-- R1 = (E, "k1", EA). -/
def reacEEA : UnitReaction := ⟨stE, rateK1, stEA⟩

/-- R2 = (EA, "k-1", E). -/
def reacEAE : UnitReaction := ⟨stEA, rateKm1, stE⟩

/-- The network after adding only R1. -/
def netR1 : Reactions := ⟨[reacEEA], [stE, stEA], []⟩

/-- The network after adding R1 then R2. -/
def netR1R2 : Reactions := ⟨[reacEEA, reacEAE], [stE, stEA], [⟨reacEAE, reacEEA⟩]⟩

def stA : Enzymestate := ⟨"A"⟩

def stB : Enzymestate := ⟨"B"⟩

def stC : Enzymestate := ⟨"C"⟩

/-- The three-state cycle A→B, B→C, C→A with no reverses. -/
def cycleReactions : List UnitReaction :=
  [⟨stA, ⟨"kab", none⟩, stB⟩, ⟨stB, ⟨"kbc", none⟩, stC⟩, ⟨stC, ⟨"kca", none⟩, stA⟩]

def reacAB : UnitReaction := ⟨stA, ⟨"k1", none⟩, stB⟩

def reacBA2 : UnitReaction := ⟨stB, ⟨"k2", none⟩, stA⟩

def reacBA3 : UnitReaction := ⟨stB, ⟨"k3", none⟩, stA⟩

/-- Two parallel reverse reactions B→A next to one A→B. -/
def parallelReactions : List UnitReaction := [reacAB, reacBA2, reacBA3]

/-- A self-loop reaction A→A. -/
def selfLoop : UnitReaction := ⟨stA, ⟨"k", none⟩, stA⟩

/-! Bridging lemmas between the boolean equalities of the embedding and
propositional equality. -/

theorem esEq_eq_decide (a b : Enzymestate) : esEq a b = decide (a = b) := by
  cases a with
  | mk x =>
  cases b with
  | mk y =>
  by_cases h : x = y <;> simp [esEq, h, Enzymestate.mk.injEq]

theorem esEq_iff {a b : Enzymestate} : esEq a b = true ↔ a = b := by
  simp [esEq_eq_decide]

theorem rrEq_iff {a b : ReactionRate} : rrEq a b = true ↔ a.name = b.name := by
  simp [rrEq]

theorem urEq_iff {a b : UnitReaction} :
    urEq a b = true ↔
      a.from_state = b.from_state ∧ a.to_state = b.to_state ∧ a.rate.name = b.rate.name := by
  simp [urEq, esEq_iff, rrEq_iff, Bool.and_assoc]

theorem urEq_self (a : UnitReaction) : urEq a a = true := by
  simp [urEq_iff]

/-- `reverse_Reaction` computed from the spec-side candidate list. -/
theorem reverse_Reaction_eq (net : Reactions) (r : UnitReaction) :
    net.reverse_Reaction r =
      match reverseCandidates net r with
      | [] => .ok none
      | [x] => .ok (some x)
      | _ => .error Err.multipleReverseReactions := by
  have hstep : net.reverse_Reaction r =
      match (net.consumed_by r.to_state).filter
          (fun react => esEq react.to_state r.from_state) with
      | [] => .ok none
      | [x] => .ok (some x)
      | _ => .error Err.multipleReverseReactions := rfl
  have hf : (net.consumed_by r.to_state).filter
      (fun react => esEq react.to_state r.from_state) = reverseCandidates net r := by
    unfold Reactions.consumed_by reverseCandidates
    rw [List.filter_filter]
    refine List.filter_congr fun x hx => ?_
    simp [esEq_eq_decide]
    by_cases h1 : x.from_state = r.to_state <;> by_cases h2 : x.to_state = r.from_state <;>
      simp [h1, h2]
  rw [hstep, hf]

/-- `reaction_from_Reactants` computed from the spec-side match list. -/
theorem reaction_from_Reactants_eq (net : Reactions) (f t : Enzymestate) :
    net.reaction_from_Reactants f t =
      match reactionsBetween net f t with
      | [] => .ok none
      | [x] => .ok (some x)
      | _ => .error Err.multipleMatchingReactions := by
  have hf : net.reactions.filter
      (fun reaction => esEq reaction.from_state f && esEq reaction.to_state t) =
      reactionsBetween net f t := by
    unfold reactionsBetween
    refine List.filter_congr fun x hx => ?_
    simp [esEq_eq_decide]
  unfold Reactions.reaction_from_Reactants
  rw [hf]

/-- `reaction_from_Rate` is empty exactly when the rate name is unregistered. -/
theorem reaction_from_Rate_eq_nil {net : Reactions} {r : ReactionRate} :
    net.reaction_from_Rate r = [] ↔ ∀ x ∈ net.reactions, x.rate.name ≠ r.name := by
  simp [Reactions.reaction_from_Rate, List.filter_eq_nil_iff, rrEq]

/-- `add_enzymeStates` only touches the state list. -/
theorem add_enzymeStates_reactions (net : Reactions) (u : UnitReaction) :
    (net.add_enzymeStates u).reactions = net.reactions := rfl

/-- `add_enzymeStates` leaves the edges unchanged. -/
theorem add_enzymeStates_bidirectionalRates (net : Reactions) (u : UnitReaction) :
    (net.add_enzymeStates u).bidirectionalRates = net.bidirectionalRates := rfl

/-- When the rate name is fresh the duplicate check passes and `addReaction`
proceeds to the append and pairing steps. -/
theorem addReactionSt_of_rateFresh (net : Reactions) (r : UnitReaction)
    (h : ∀ x ∈ net.reactions, x.rate.name ≠ r.rate.name) :
    net.addReactionSt r =
      (({ net with reactions := net.reactions ++ [r] }).add_enzymeStates r).add_bidirectionalRates
        r := by
  have h0 : net.reaction_from_Rate r.rate = [] := reaction_from_Rate_eq_nil.mpr h
  unfold Reactions.addReactionSt
  rw [h0]
  simp

/-- When no existing edge contains the new reaction, the pairing step is decided
by `reverse_Reaction`. -/
theorem add_bidirectionalRates_of_not_contained (net : Reactions) (r : UnitReaction)
    (hc : net.bidirectionalRates.any (fun bi => bi.contains_reaction (some r)) = false) :
    net.add_bidirectionalRates r =
      match net.reverse_Reaction r with
      | .error e => (net, some e)
      | .ok none => (net, none)
      | .ok (some reverseReaction) =>
          ({ net with bidirectionalRates :=
              net.bidirectionalRates ++ [⟨r, reverseReaction⟩] }, none) := by
  unfold Reactions.add_bidirectionalRates
  rw [hc]
  simp

/-- C9: ReactionRate equality depends only on the name: rates named "k1" with
reactant annotations "A" and "B" compare equal, while their string forms are
"k1[A]" and "k1[B]", which differ; in general `rrEq` compares the names alone,
so the reactant annotation is never part of identity. -/
theorem C9_reactionRate_identity_by_name :
    rrEq ⟨"k1", some "A"⟩ ⟨"k1", some "B"⟩ = true ∧
    ReactionRate.toStr ⟨"k1", some "A"⟩ = "k1[A]" ∧
    ReactionRate.toStr ⟨"k1", some "B"⟩ = "k1[B]" ∧
    ("k1[A]" : String) ≠ "k1[B]" ∧
    ∀ a b : ReactionRate, rrEq a b = (a.name == b.name) :=
  ⟨rfl, rfl, rfl, by decide, fun a b => rfl⟩

/-- C1: at the spec's single-direction examples the kinetic matrix behaves as
claimed (k1 present at [E][EA], the reverse cell absent), but
`linear_graph_matrix` raises IndexError instead of leaving the incomplete cell
absent; on the three-state cycle no BiDirReaction is created and
`linear_graph_matrix` again raises IndexError instead of being entirely absent. -/
theorem C1_linear_graph_raises_on_one_directional :
    replay [reacEEA] = .ok netR1 ∧
    netR1.kinetic_matrix = .ok [[none, some rateK1], [none, none]] ∧
    netR1.linear_graph_matrix = .error Err.indexError ∧
    Except.map (fun n => n.bidirectionalRates) (replay cycleReactions) = .ok [] ∧
    Except.bind (replay cycleReactions) (fun n => n.linear_graph_matrix) =
      .error Err.indexError :=
  ⟨rfl, rfl, rfl, rfl, rfl⟩

/-- C2 counterexample: after adding R1=(E,"k1",EA) then R2=(EA,"k-1",E) both
linear-graph cells hold the same BidirectionalEdge, but its string form is
"k-1//k1", not "k1//k-1" as the claim states. -/
theorem C2_counterexample :
    replay [reacEEA, reacEAE] = .ok netR1R2 ∧
    netR1R2.linear_graph_matrix =
      .ok [[none, some ⟨reacEAE, reacEEA⟩], [some ⟨reacEAE, reacEEA⟩, none]] ∧
    BiDirReaction.toStr ⟨reacEAE, reacEEA⟩ = "k-1//k1" ∧
    BiDirReaction.toStr ⟨reacEAE, reacEEA⟩ ≠ "k1//k-1" :=
  ⟨rfl, rfl, rfl, by decide⟩

/-- C2 amended: after adding R1=(E,"k1",EA) then R2=(EA,"k-1",E), the cells
[i][j] and [j][i] of the linear-graph matrix reference the same
BidirectionalEdge; its forward leg is R2 (the reaction whose addition completed
the edge), its reverse leg R1, and its string form is "k-1//k1". -/
theorem C2_amended_same_edge_reversed_label :
    ∃ edge : BiDirReaction,
      Except.bind (replay [reacEEA, reacEAE]) (fun n => n.linear_graph_matrix) =
        .ok [[none, some edge], [some edge, none]] ∧
      edge.fwd_reaction = reacEAE ∧
      edge.rev_reaction = reacEEA ∧
      edge.toStr = "k-1//k1" :=
  ⟨⟨reacEAE, reacEEA⟩, rfl, rfl, rfl, rfl⟩

/-- C5: adding a reaction whose rate name equals a registered rate name raises
DuplicateRate before any mutation, so the returned state is the input state:
reactions, states and edges are all unchanged. -/
theorem C5_duplicate_rate_rejection_atomic (net : Reactions) (r : UnitReaction)
    (h : ∃ x ∈ net.reactions, x.rate.name = r.rate.name) :
    net.addReactionSt r = (net, some Err.duplicateRate) ∧
    net.addReaction r = .error Err.duplicateRate := by
  obtain ⟨x, hx, hname⟩ := h
  have hmem : x ∈ net.reaction_from_Rate r.rate := by
    simp [Reactions.reaction_from_Rate, List.mem_filter, hx, rrEq, hname]
  have hlen : (net.reaction_from_Rate r.rate).length > 0 :=
    List.length_pos.mpr (List.ne_nil_of_mem hmem)
  have hst : net.addReactionSt r = (net, some Err.duplicateRate) := by
    unfold Reactions.addReactionSt
    rw [if_pos hlen]
  exact ⟨hst, by rw [Reactions.addReaction, hst]⟩

/-- Witness for C5 at a concrete input: a second rate named "k1" is rejected
and the network is returned unchanged. -/
theorem C5_witness :
    Reactions.addReactionSt ⟨[reacEEA], [stE, stEA], []⟩ ⟨stEA, ⟨"k1", some "X"⟩, stE⟩ =
      (⟨[reacEEA], [stE, stEA], []⟩, some Err.duplicateRate) ∧
    Reactions.addReaction ⟨[reacEEA], [stE, stEA], []⟩ ⟨stEA, ⟨"k1", some "X"⟩, stE⟩ =
      .error Err.duplicateRate :=
  C5_duplicate_rate_rejection_atomic ⟨[reacEEA], [stE, stEA], []⟩ ⟨stEA, ⟨"k1", some "X"⟩, stE⟩
    ⟨reacEEA, by decide, by decide⟩

/-- C6: `reverse_Reaction` considers exactly the existing reactions with
fromState = B and toState = A for R = (A, rate, B): it returns none on zero
matches, the unique match on one, and raises MultipleReverseReactions otherwise. -/
theorem C6_reverse_Reaction_considers_reversed_endpoints (net : Reactions) (r : UnitReaction) :
    net.reverse_Reaction r =
      match reverseCandidates net r with
      | [] => .ok none
      | [x] => .ok (some x)
      | _ => .error Err.multipleReverseReactions :=
  reverse_Reaction_eq net r

/-- C10 counterexample: a fresh rate alone does not make a self-loop call
succeed. On the network already holding the self-loop (A,"k",A) — itself
reachable by replay — adding a second self-loop (A,"q1",A) whose rate is new
raises MultipleReverseReactions: after the append the reverse search finds both
self-loops as candidates. -/
theorem C10_counterexample :
    replay [selfLoop] = .ok ⟨[selfLoop], [stA], [⟨selfLoop, selfLoop⟩]⟩ ∧
    (⟨stA, ⟨"q1", none⟩, stA⟩ : UnitReaction).rate.name ≠ selfLoop.rate.name ∧
    Reactions.addReaction ⟨[selfLoop], [stA], [⟨selfLoop, selfLoop⟩]⟩
        ⟨stA, ⟨"q1", none⟩, stA⟩ =
      .error Err.multipleReverseReactions :=
  ⟨rfl, by decide, rfl⟩

/-- C10 amended: a self-loop reaction with a fresh rate, whose endpoints pair is
not yet used by any registered reaction (in particular no earlier self-loop on
that state) and which no edge contains, is accepted, and because the reverse
search runs after the append it finds the reaction itself: the new
BidirectionalEdge has the same reaction as forward and reverse leg. -/
theorem C10_self_loop_pairs_with_itself (net : Reactions) (r : UnitReaction)
    (hself : r.from_state = r.to_state)
    (hrate : ∀ x ∈ net.reactions, x.rate.name ≠ r.rate.name)
    (hpair : ∀ x ∈ net.reactions, ¬(x.from_state = r.from_state ∧ x.to_state = r.to_state))
    (hedge : ∀ b ∈ net.bidirectionalRates, b.contains_reaction (some r) = false) :
    ∃ net', net.addReaction r = .ok net' ∧
      net'.reactions = net.reactions ++ [r] ∧
      net'.bidirectionalRates = net.bidirectionalRates ++ [⟨r, r⟩] := by
  set net2 := ({ net with reactions := net.reactions ++ [r] }).add_enzymeStates r with hnet2
  have hre : net2.reactions = net.reactions ++ [r] := rfl
  have hbd : net2.bidirectionalRates = net.bidirectionalRates := rfl
  have hcand : reverseCandidates net2 r = [r] := by
    unfold reverseCandidates
    rw [hre, List.filter_append]
    have h1 : net.reactions.filter
        (fun x => decide (x.from_state = r.to_state ∧ x.to_state = r.from_state)) = [] := by
      refine List.filter_eq_nil_iff.mpr fun x hx => ?_
      simp only [decide_eq_true_eq]
      rintro ⟨ha, hb⟩
      exact hpair x hx ⟨ha.trans hself.symm, hb.trans hself⟩
    have h2 : [r].filter
        (fun x => decide (x.from_state = r.to_state ∧ x.to_state = r.from_state)) = [r] := by
      simp [hself]
    rw [h1, h2]
    rfl
  have hrev : net2.reverse_Reaction r = .ok (some r) := by
    rw [reverse_Reaction_eq, hcand]
  have hanyf : net2.bidirectionalRates.any (fun bi => bi.contains_reaction (some r)) = false := by
    rw [hbd]
    refine List.any_eq_false.mpr fun b hb => ?_
    rw [hedge b hb]
    exact Bool.false_ne_true
  have hst : net.addReactionSt r =
      ({ net2 with bidirectionalRates := net2.bidirectionalRates ++ [⟨r, r⟩] }, none) := by
    rw [addReactionSt_of_rateFresh net r hrate, ← hnet2,
      add_bidirectionalRates_of_not_contained net2 r hanyf, hrev]
  refine ⟨{ net2 with bidirectionalRates := net2.bidirectionalRates ++ [⟨r, r⟩] }, ?_, hre, ?_⟩
  · rw [Reactions.addReaction, hst]
  · rw [hbd]

/-- Witness for C10: adding the self-loop A→A to the empty network yields an
edge whose two legs are both that reaction. -/
theorem C10_witness :
    ∃ net', Reactions.empty.addReaction selfLoop = .ok net' ∧
      net'.reactions = Reactions.empty.reactions ++ [selfLoop] ∧
      net'.bidirectionalRates = Reactions.empty.bidirectionalRates ++ [⟨selfLoop, selfLoop⟩] :=
  C10_self_loop_pairs_with_itself Reactions.empty selfLoop rfl
    (by simp [Reactions.empty]) (by simp [Reactions.empty]) (by simp [Reactions.empty])

/-- A successful `mapExc` produces one output per input. -/
theorem mapExc_ok_length {α β : Type} {f : α → Except Err β} {l : List α} {bs : List β}
    (h : mapExc f l = .ok bs) : bs.length = l.length := by
  induction l generalizing bs with
  | nil =>
    simp only [mapExc, Except.ok.injEq] at h
    subst h
    rfl
  | cons a l ih =>
    simp only [mapExc] at h
    cases hfa : f a with
    | error e => rw [hfa] at h; exact absurd h (by simp)
    | ok b =>
      rw [hfa] at h
      cases hml : mapExc f l with
      | error e => rw [hml] at h; exact absurd h (by simp)
      | ok bs' =>
        rw [hml] at h
        simp only [Except.ok.injEq] at h
        rw [← h]
        simp [ih hml]

/-- A successful `mapExc` computes each output cell from the input at the same
position. -/
theorem mapExc_ok_getD {α β : Type} {f : α → Except Err β} {l : List α} {bs : List β}
    (h : mapExc f l = .ok bs) (da : α) (db : β) :
    ∀ i, i < l.length → f (l.getD i da) = .ok (bs.getD i db) := by
  induction l generalizing bs with
  | nil => intro i hi; exact absurd hi (by simp)
  | cons a l ih =>
    simp only [mapExc] at h
    cases hfa : f a with
    | error e => rw [hfa] at h; exact absurd h (by simp)
    | ok b =>
      rw [hfa] at h
      cases hml : mapExc f l with
      | error e => rw [hml] at h; exact absurd h (by simp)
      | ok bs' =>
        rw [hml] at h
        simp only [Except.ok.injEq] at h
        intro i hi
        cases i with
        | zero => rw [← h]; exact hfa
        | succ n =>
          rw [← h]
          exact ih hml n (by simpa using hi)

/-- A successful `reaction_from_Reactants` lookup returns the head of the match
list: the unique match, or none. -/
theorem reaction_from_Reactants_ok_head {net : Reactions} {f t : Enzymestate}
    {o : Option UnitReaction} (h : net.reaction_from_Reactants f t = .ok o) :
    o = (reactionsBetween net f t).head? := by
  rw [reaction_from_Reactants_eq] at h
  cases hl : reactionsBetween net f t with
  | nil => rw [hl] at h; simp at h; simp [h]
  | cons x xs =>
    cases xs with
    | nil => rw [hl] at h; simp at h; simp [h]
    | cons y ys => rw [hl] at h; exact absurd h (by simp)

/-- With two or more matches between the same endpoints the lookup raises
MultipleMatchingReactions. -/
theorem reaction_from_Reactants_error_of_two {net : Reactions} {f t : Enzymestate}
    (h : 2 ≤ (reactionsBetween net f t).length) :
    net.reaction_from_Reactants f t = .error Err.multipleMatchingReactions := by
  rw [reaction_from_Reactants_eq]
  cases hl : reactionsBetween net f t with
  | nil => rw [hl] at h; simp at h
  | cons x xs =>
    cases xs with
    | nil => rw [hl] at h; simp at h
    | cons y ys => rfl

/-- C7: a computed kinetic matrix is N×N in the order of `enzymeStates`, each
cell holding the rate of the unique reaction from states[i] to states[j] (the
head of the match list) or absent, for every ordered pair including i = j; and
the underlying lookup raises MultipleMatchingReactions when the endpoints match
more than one reaction. -/
theorem C7_kinetic_matrix_cells (net : Reactions) (m : List (List (Option ReactionRate)))
    (h : net.kinetic_matrix = .ok m) :
    m.length = net.enzymeStates.length ∧
    (∀ i, i < net.enzymeStates.length → (m.getD i []).length = net.enzymeStates.length) ∧
    (∀ i j, i < net.enzymeStates.length → j < net.enzymeStates.length →
      (m.getD i []).getD j none =
        (reactionsBetween net (net.enzymeStates.getD i ⟨""⟩)
            (net.enzymeStates.getD j ⟨""⟩)).head?.map (fun x => x.rate)) ∧
    (∀ f t, 2 ≤ (reactionsBetween net f t).length →
      net.reaction_from_Reactants f t = .error Err.multipleMatchingReactions) := by
  unfold Reactions.kinetic_matrix at h
  have hlen := mapExc_ok_length h
  have hrow := mapExc_ok_getD h ⟨""⟩ []
  refine ⟨hlen, ?_, ?_, fun f t hft => reaction_from_Reactants_error_of_two hft⟩
  · intro i hi
    exact mapExc_ok_length (hrow i hi)
  · intro i j hi hj
    have hcell := mapExc_ok_getD (hrow i hi) ⟨""⟩ none j hj
    cases hr : net.reaction_from_Reactants (net.enzymeStates.getD i ⟨""⟩)
        (net.enzymeStates.getD j ⟨""⟩) with
    | error e => rw [hr] at hcell; exact absurd hcell (by simp)
    | ok reac =>
      rw [hr] at hcell
      simp only [Except.ok.injEq] at hcell
      rw [← hcell, reaction_from_Reactants_ok_head hr]

/-- Witness for C7 on the two-state bidirectional network: the matrix is 2×2 and
its cells are the match-list heads. -/
theorem C7_witness :
    ([[none, some rateK1], [some rateKm1, none]] :
        List (List (Option ReactionRate))).length = netR1R2.enzymeStates.length ∧
    (∀ i, i < netR1R2.enzymeStates.length →
      (([[none, some rateK1], [some rateKm1, none]] :
          List (List (Option ReactionRate))).getD i []).length =
        netR1R2.enzymeStates.length) ∧
    (∀ i j, i < netR1R2.enzymeStates.length → j < netR1R2.enzymeStates.length →
      ((([[none, some rateK1], [some rateKm1, none]] :
          List (List (Option ReactionRate))).getD i []).getD j none) =
        (reactionsBetween netR1R2 (netR1R2.enzymeStates.getD i ⟨""⟩)
            (netR1R2.enzymeStates.getD j ⟨""⟩)).head?.map (fun x => x.rate)) ∧
    (∀ f t, 2 ≤ (reactionsBetween netR1R2 f t).length →
      netR1R2.reaction_from_Reactants f t = .error Err.multipleMatchingReactions) :=
  C7_kinetic_matrix_cells netR1R2 [[none, some rateK1], [some rateKm1, none]] rfl

/-- The membership test of `_add_enzymeStates` agrees with list membership. -/
theorem stateMemB (states : List Enzymestate) (e : Enzymestate) :
    states.any (fun x => esEq e x) = decide (e ∈ states) := by
  by_cases h : e ∈ states
  · rw [decide_eq_true h]
    exact List.any_eq_true.mpr ⟨e, h, by simp [esEq_iff]⟩
  · rw [decide_eq_false h]
    refine List.any_eq_false.mpr fun x hx => ?_
    intro hex
    exact h (by rw [esEq_iff.mp hex]; exact hx)

/-- One insertion step of `_add_enzymeStates` is `insertUniqueState`. -/
theorem ins_eq (states : List Enzymestate) (e : Enzymestate) :
    (if states.any (fun x => esEq e x) then states else states ++ [e]) =
      insertUniqueState states e := by
  rw [stateMemB]
  simp [insertUniqueState]

/-- The insertion function of `_add_enzymeStates`, as a function, is
`insertUniqueState`. -/
theorem ins_funext :
    (fun (states : List Enzymestate) (e : Enzymestate) =>
        if states.any (fun x => esEq e x) then states else states ++ [e]) =
      insertUniqueState := by
  funext states e
  exact ins_eq states e

/-- `add_enzymeStates` inserts the source and then the destination. -/
theorem add_enzymeStates_eq (net : Reactions) (u : UnitReaction) :
    (net.add_enzymeStates u).enzymeStates =
      insertUniqueState (insertUniqueState net.enzymeStates u.from_state) u.to_state := by
  show [u.from_state, u.to_state].foldl
      (fun states e => if states.any (fun x => esEq e x) then states else states ++ [e])
      net.enzymeStates =
    insertUniqueState (insertUniqueState net.enzymeStates u.from_state) u.to_state
  rw [ins_funext]
  rfl

/-- The pairing step never changes the reactions list. -/
theorem add_bidirectionalRates_fst_reactions (net : Reactions) (r : UnitReaction) :
    (net.add_bidirectionalRates r).1.reactions = net.reactions := by
  unfold Reactions.add_bidirectionalRates
  split
  · rfl
  · split <;> rfl

/-- The pairing step never changes the state list. -/
theorem add_bidirectionalRates_fst_enzymeStates (net : Reactions) (r : UnitReaction) :
    (net.add_bidirectionalRates r).1.enzymeStates = net.enzymeStates := by
  unfold Reactions.add_bidirectionalRates
  split
  · rfl
  · split <;> rfl

/-- A successful `addReaction` appends the reaction and inserts its two states
in source-then-destination order. -/
theorem addReaction_ok_reactions_states {net : Reactions} {r : UnitReaction} {net' : Reactions}
    (h : net.addReaction r = .ok net') :
    net'.reactions = net.reactions ++ [r] ∧
    net'.enzymeStates =
      insertUniqueState (insertUniqueState net.enzymeStates r.from_state) r.to_state := by
  unfold Reactions.addReaction at h
  cases hs : net.addReactionSt r with
  | mk n oe =>
    rw [hs] at h
    cases oe with
    | some e => exact absurd h (by simp)
    | none =>
      simp only [Except.ok.injEq] at h
      subst h
      simp only [Reactions.addReactionSt] at hs
      split at hs
      · exact absurd (congrArg Prod.snd hs) (by simp)
      · have hfst := congrArg Prod.fst hs
        simp only [Prod.fst] at hfst
        constructor
        · rw [← hfst, add_bidirectionalRates_fst_reactions, add_enzymeStates_reactions]
        · rw [← hfst, add_bidirectionalRates_fst_enzymeStates, add_enzymeStates_eq]

/-- Replaying a successful sequence appends its reactions and folds
`insertUniqueState` over the encountered states. -/
theorem replayFrom_ok_reactions_states {net0 : Reactions} {rs : List UnitReaction}
    {net : Reactions} (h : replayFrom net0 rs = .ok net) :
    net.reactions = net0.reactions ++ rs ∧
    net.enzymeStates = (statesSeq rs).foldl insertUniqueState net0.enzymeStates := by
  induction rs generalizing net0 with
  | nil =>
    simp only [replayFrom, Except.ok.injEq] at h
    subst h
    simp [statesSeq]
  | cons r rs ih =>
    simp only [replayFrom] at h
    cases ha : net0.addReaction r with
    | error e => rw [ha] at h; exact absurd h (by simp)
    | ok net1 =>
      rw [ha] at h
      obtain ⟨h1, h2⟩ := addReaction_ok_reactions_states ha
      obtain ⟨ih1, ih2⟩ := ih h
      have hseq : statesSeq (r :: rs) = r.from_state :: r.to_state :: statesSeq rs := by
        simp [statesSeq]
      constructor
      · rw [ih1, h1, List.append_assoc]
        rfl
      · rw [ih2, h2, hseq, List.foldl_cons, List.foldl_cons]

/-- Folding `insertUniqueState` preserves the absence of duplicates. -/
theorem nodup_foldl_ins (l : List Enzymestate) :
    ∀ acc : List Enzymestate, acc.Nodup → (l.foldl insertUniqueState acc).Nodup := by
  induction l with
  | nil => intro acc h; simpa using h
  | cons a l ih =>
    intro acc h
    rw [List.foldl_cons]
    refine ih _ ?_
    unfold insertUniqueState
    by_cases hmem : a ∈ acc
    · simpa [hmem] using h
    · rw [if_neg hmem, List.nodup_append]
      refine ⟨h, List.nodup_singleton a, fun x hx hxa => ?_⟩
      have hxa' : x = a := by simpa using hxa
      exact hmem (hxa' ▸ hx)

/-- Membership after folding `insertUniqueState`: initial elements plus the
folded ones. -/
theorem mem_foldl_ins (l : List Enzymestate) :
    ∀ (acc : List Enzymestate) (e : Enzymestate),
      e ∈ l.foldl insertUniqueState acc ↔ e ∈ acc ∨ e ∈ l := by
  induction l with
  | nil => intro acc e; simp
  | cons a l ih =>
    intro acc e
    rw [List.foldl_cons, ih]
    unfold insertUniqueState
    by_cases hmem : a ∈ acc
    · rw [if_pos hmem]
      constructor
      · rintro (h | h)
        · exact Or.inl h
        · exact Or.inr (List.mem_cons_of_mem a h)
      · rintro (h | h)
        · exact Or.inl h
        · rcases List.mem_cons.mp h with rfl | h'
          · exact Or.inl hmem
          · exact Or.inr h'
    · rw [if_neg hmem]
      simp only [List.mem_append, List.mem_cons, List.mem_singleton]
      tauto

/-- C8: after a successful replay the state list contains exactly the states
appearing as source or destination of registered reactions, each exactly once,
in the order new names are first encountered while replaying the calls in input
order. -/
theorem C8_states_unique_first_seen (rs : List UnitReaction) (net : Reactions)
    (h : replay rs = .ok net) :
    (∀ e, e ∈ net.enzymeStates ↔ ∃ r ∈ net.reactions, e = r.from_state ∨ e = r.to_state) ∧
    net.enzymeStates.Nodup ∧
    net.enzymeStates = firstSeen (statesSeq rs) := by
  obtain ⟨h1, h2⟩ := replayFrom_ok_reactions_states h
  have hre : net.reactions = rs := by simpa using h1
  have hst : net.enzymeStates = firstSeen (statesSeq rs) := by rw [h2]; rfl
  refine ⟨?_, ?_, hst⟩
  · intro e
    rw [hst, hre]
    unfold firstSeen
    rw [mem_foldl_ins]
    simp [statesSeq, List.mem_flatMap]
  · rw [hst]
    exact nodup_foldl_ins _ _ List.nodup_nil

/-- Witness for C8 on the two-state example: the recorded states are E then EA,
without duplicates, matching first-seen order. -/
theorem C8_witness :
    netR1R2.enzymeStates = firstSeen (statesSeq [reacEEA, reacEAE]) ∧
    netR1R2.enzymeStates.Nodup :=
  ⟨(C8_states_unique_first_seen [reacEEA, reacEAE] netR1R2 rfl).2.2,
   (C8_states_unique_first_seen [reacEEA, reacEAE] netR1R2 rfl).2.1⟩

/-- `reverses` is symmetric. -/
theorem reverses_symm {a b : UnitReaction} (h : reverses a b) : reverses b a :=
  ⟨h.2.symm, h.1.symm⟩

/-- Reverse-candidate analysis for the list seen by `reverse_Reaction` during
`addReaction` (the reaction already appended): with pairwise-distinct ordered
pairs and a fresh pair there are zero candidates or exactly one. -/
theorem filter_rev_small (l : List UnitReaction) (r : UnitReaction)
    (hP : l.Pairwise (fun a b => ¬samePair a b)) (hpf : ∀ x ∈ l, ¬samePair x r) :
    ((l ++ [r]).filter
        (fun x => decide (x.from_state = r.to_state ∧ x.to_state = r.from_state)) = [] ∧
      ∀ x ∈ l ++ [r], ¬(x.from_state = r.to_state ∧ x.to_state = r.from_state)) ∨
    (∃ y, (l ++ [r]).filter
        (fun x => decide (x.from_state = r.to_state ∧ x.to_state = r.from_state)) = [y] ∧
      y.from_state = r.to_state ∧ y.to_state = r.from_state ∧ y ∈ l ++ [r]) := by
  set p := fun x : UnitReaction =>
    decide (x.from_state = r.to_state ∧ x.to_state = r.from_state) with hp
  by_cases hself : r.from_state = r.to_state
  · have hpr : p r = true := by rw [hp]; exact decide_eq_true ⟨hself, hself.symm⟩
    have hl : l.filter p = [] := by
      refine List.filter_eq_nil_iff.mpr fun x hx => ?_
      rw [hp]
      simp only [decide_eq_true_eq]
      rintro ⟨h1, h2⟩
      exact hpf x hx ⟨h1.trans hself.symm, h2.trans hself⟩
    refine Or.inr ⟨r, ?_, hself, hself.symm, by simp⟩
    rw [List.filter_append, hl]
    simp [hpr]
  · have hpr : p r = false := by
      rw [hp]
      exact decide_eq_false fun hc => hself hc.1
    have happ : (l ++ [r]).filter p = l.filter p := by
      rw [List.filter_append]
      simp [hpr]
    cases hfl : l.filter p with
    | nil =>
      refine Or.inl ⟨by rw [happ, hfl], fun x hx => ?_⟩
      rcases List.mem_append.mp hx with hxl | hxr
      · have hnp := List.filter_eq_nil_iff.mp hfl x hxl
        rw [hp] at hnp
        simpa using hnp
      · have hxeq : x = r := by simpa using hxr
        subst hxeq
        exact fun hc => hself hc.1
    | cons y ys =>
      cases ys with
      | nil =>
        have hymem : y ∈ l.filter p := by rw [hfl]; simp
        obtain ⟨hyl, hyp⟩ := List.mem_filter.mp hymem
        rw [hp] at hyp
        have hyAnd := of_decide_eq_true hyp
        exact Or.inr ⟨y, by rw [happ, hfl], hyAnd.1, hyAnd.2, List.mem_append_left _ hyl⟩
      | cons z zs =>
        exfalso
        have hPf := hP.filter p
        rw [hfl] at hPf
        have hyz : ¬samePair y z := by
          have := List.pairwise_cons.mp hPf
          exact this.1 z (by simp)
        have hymem : y ∈ l.filter p := by rw [hfl]; simp
        have hzmem : z ∈ l.filter p := by rw [hfl]; simp
        have hyp := (List.mem_filter.mp hymem).2
        have hzp := (List.mem_filter.mp hzmem).2
        rw [hp] at hyp hzp
        have hyAnd := of_decide_eq_true hyp
        have hzAnd := of_decide_eq_true hzp
        exact hyz ⟨hyAnd.1.trans hzAnd.1.symm, hyAnd.2.trans hzAnd.2.symm⟩

/-- Under fresh rate name and fresh endpoints pair, `addReaction` succeeds and
either appends no edge (no reverse yet) or exactly one edge pairing the new
reaction with the unique reverse. -/
theorem addReaction_ok_of_fresh (net : Reactions) (r : UnitReaction)
    (hP : net.reactions.Pairwise (fun a b => ¬samePair a b))
    (hpf : pairFresh net r)
    (hrate : rateFresh net r)
    (hedge : net.bidirectionalRates.any (fun bi => bi.contains_reaction (some r)) = false) :
    ∃ net', net.addReaction r = .ok net' ∧
      net'.reactions = net.reactions ++ [r] ∧
      ((net'.bidirectionalRates = net.bidirectionalRates ∧
          ∀ x ∈ net'.reactions, ¬(x.from_state = r.to_state ∧ x.to_state = r.from_state)) ∨
        (∃ y, net'.bidirectionalRates = net.bidirectionalRates ++ [⟨r, y⟩] ∧
          y.from_state = r.to_state ∧ y.to_state = r.from_state ∧ y ∈ net'.reactions ∧
          net'.reactions.filter
              (fun x => decide (x.from_state = r.to_state ∧ x.to_state = r.from_state)) =
            [y])) := by
  have hst := addReactionSt_of_rateFresh net r hrate
  set net2 := ({ net with reactions := net.reactions ++ [r] }).add_enzymeStates r with hnet2
  have hre : net2.reactions = net.reactions ++ [r] := rfl
  have hbd : net2.bidirectionalRates = net.bidirectionalRates := rfl
  have hc2 : net2.bidirectionalRates.any (fun bi => bi.contains_reaction (some r)) = false := by
    rw [hbd]; exact hedge
  have habd := add_bidirectionalRates_of_not_contained net2 r hc2
  rcases filter_rev_small net.reactions r hP hpf with ⟨hnil, hnone⟩ | ⟨y, hone, hy1, hy2, hymem⟩
  · have hcand : reverseCandidates net2 r = [] := by
      unfold reverseCandidates
      rw [hre]
      exact hnil
    have hrev : net2.reverse_Reaction r = .ok none := by rw [reverse_Reaction_eq, hcand]
    refine ⟨net2, ?_, hre, Or.inl ⟨hbd, fun x hx => hnone x (hre ▸ hx)⟩⟩
    rw [Reactions.addReaction, hst, habd, hrev]
  · have hcand : reverseCandidates net2 r = [y] := by
      unfold reverseCandidates
      rw [hre]
      exact hone
    have hrev : net2.reverse_Reaction r = .ok (some y) := by rw [reverse_Reaction_eq, hcand]
    refine ⟨{ net2 with bidirectionalRates := net2.bidirectionalRates ++ [⟨r, y⟩] }, ?_, hre,
      Or.inr ⟨y, ?_, hy1, hy2, ?_, ?_⟩⟩
    · rw [Reactions.addReaction, hst, habd, hrev]
    · rw [hbd]
    · exact hymem
    · exact hone

/-- A successful `addReaction` implies the rate name was fresh and no existing
edge contained the reaction. -/
theorem addReaction_ok_inv {net : Reactions} {r : UnitReaction} {net' : Reactions}
    (h : net.addReaction r = .ok net') :
    rateFresh net r ∧
    net.bidirectionalRates.any (fun bi => bi.contains_reaction (some r)) = false := by
  unfold Reactions.addReaction at h
  cases hs : net.addReactionSt r with
  | mk n oe =>
    rw [hs] at h
    cases oe with
    | some e => exact absurd h (by simp)
    | none =>
      simp only [Reactions.addReactionSt] at hs
      split at hs
      · exact absurd (congrArg Prod.snd hs) (by simp)
      · rename_i hlen
        have hnil : net.reaction_from_Rate r.rate = [] :=
          List.length_eq_zero.mp (Nat.eq_zero_of_not_pos hlen)
        refine ⟨fun x hx => reaction_from_Rate_eq_nil.mp hnil x hx, ?_⟩
        unfold Reactions.add_bidirectionalRates at hs
        split at hs
        · exact absurd (congrArg Prod.snd hs) (by simp)
        · rename_i hany
          exact Bool.eq_false_iff.mpr hany

/-- With well-formed edges, a fresh rate name implies no edge contains the new
reaction. -/
theorem not_contained_of_edgeWf {net : Reactions} {r : UnitReaction}
    (hWf : edgeWf net) (hrate : rateFresh net r) :
    net.bidirectionalRates.any (fun bi => bi.contains_reaction (some r)) = false := by
  refine List.any_eq_false.mpr fun b hb => ?_
  intro hc
  obtain ⟨⟨x, hx, hxn⟩, ⟨y, hy, hyn⟩, _⟩ := hWf b hb
  have hc' : urEq r b.fwd_reaction = true ∨ urEq r b.rev_reaction = true := by
    simpa [BiDirReaction.contains_reaction, Bool.or_eq_true] using hc
  rcases hc' with hcc | hcc
  · exact hrate x hx (hxn.trans (urEq_iff.mp hcc).2.2.symm)
  · exact hrate y hy (hyn.trans (urEq_iff.mp hcc).2.2.symm)

/-- One successful `addReaction` step with a fresh endpoints pair preserves the
edge-count invariant. -/
theorem Inv_step {net : Reactions} {r : UnitReaction} {net' : Reactions}
    (hInv : Inv net) (hpf : pairFresh net r) (hok : net.addReaction r = .ok net') :
    Inv net' ∧ net'.reactions = net.reactions ++ [r] := by
  obtain ⟨hPw, hWf, hCnt⟩ := hInv
  obtain ⟨hrf, hedge⟩ := addReaction_ok_inv hok
  obtain ⟨net'', hok', hre, hcase⟩ := addReaction_ok_of_fresh net r hPw hpf hrf hedge
  rw [hok] at hok'
  cases Except.ok.inj hok'
  have hnotr : ∀ b ∈ net.bidirectionalRates, b.contains_reaction (some r) = false :=
    fun b hb => Bool.eq_false_iff.mpr (List.any_eq_false.mp hedge b hb)
  have hcntr0 : edgeCount net r = 0 := by
    unfold edgeCount
    exact List.countP_eq_zero.mpr fun b hb => by
      rw [hnotr b hb]
      exact Bool.false_ne_true
  refine ⟨⟨?_, ?_, ?_⟩, hre⟩
  · rw [hre, List.pairwise_append]
    refine ⟨hPw, List.Pairwise.cons (fun b hb => absurd hb (List.not_mem_nil b)) .nil,
      fun a ha b hb => ?_⟩
    have hbr : b = r := by simpa using hb
    subst hbr
    exact hpf a ha
  · intro b hb
    rcases hcase with ⟨hbd, _⟩ | ⟨y, hbd, hy1, hy2, hymem, _⟩
    · rw [hbd] at hb
      obtain ⟨⟨x1, hx1, hn1⟩, ⟨x2, hx2, hn2⟩, hrv⟩ := hWf b hb
      exact ⟨⟨x1, by rw [hre]; exact List.mem_append_left _ hx1, hn1⟩,
             ⟨x2, by rw [hre]; exact List.mem_append_left _ hx2, hn2⟩, hrv⟩
    · rw [hbd] at hb
      rcases List.mem_append.mp hb with hold | hnew
      · obtain ⟨⟨x1, hx1, hn1⟩, ⟨x2, hx2, hn2⟩, hrv⟩ := hWf b hold
        exact ⟨⟨x1, by rw [hre]; exact List.mem_append_left _ hx1, hn1⟩,
               ⟨x2, by rw [hre]; exact List.mem_append_left _ hx2, hn2⟩, hrv⟩
      · have hbeq : b = ⟨r, y⟩ := by simpa using hnew
        subst hbeq
        refine ⟨⟨r, ?_, rfl⟩, ⟨y, hymem, rfl⟩, hy1, hy2⟩
        rw [hre]
        exact List.mem_append_right _ (by simp)
  · intro s hs
    rcases hcase with ⟨hbd, hnone⟩ | ⟨y, hbd, hy1, hy2, hymem, hfilter⟩
    · have hec : edgeCount net' s = edgeCount net s := by
        unfold edgeCount
        rw [hbd]
      rw [hec]
      rcases List.mem_append.mp (hre ▸ hs) with hsold | hsr
      · have hrs : ¬reverses r s := by
          rintro ⟨h1, h2⟩
          exact hnone s hs ⟨h2.symm, h1.symm⟩
        have hany : net'.reactions.any (fun x => decide (reverses x s)) =
            net.reactions.any (fun x => decide (reverses x s)) := by
          rw [hre, List.any_append]
          have hd : decide (reverses r s) = false := decide_eq_false hrs
          have hone : List.any [r] (fun x => decide (reverses x s)) = false := by
            simp only [List.any_cons, List.any_nil, Bool.or_false]
            exact hd
          rw [hone, Bool.or_false]
        rw [hany]
        exact hCnt s hsold
      · have hsr' : s = r := by simpa using hsr
        subst hsr'
        rw [hcntr0]
        have hanyf : net'.reactions.any (fun x => decide (reverses x s)) = false :=
          List.any_eq_false.mpr fun x hx hc => hnone x hx (of_decide_eq_true hc)
        rw [hanyf]
        simp
    · have hmemf : ∀ x ∈ net'.reactions,
          x.from_state = s.to_state → True := fun _ _ _ => trivial
      have huniq : ∀ x ∈ net'.reactions,
          x.from_state = r.to_state ∧ x.to_state = r.from_state → x = y := by
        intro x hx hx2
        have hxf : x ∈ net'.reactions.filter
            (fun z => decide (z.from_state = r.to_state ∧ z.to_state = r.from_state)) :=
          List.mem_filter.mpr ⟨hx, decide_eq_true hx2⟩
        rw [hfilter] at hxf
        simpa using hxf
      have hec : edgeCount net' s = edgeCount net s +
          (if (BiDirReaction.mk r y).contains_reaction (some s) = true then 1 else 0) := by
        unfold edgeCount
        rw [hbd, List.countP_append]
        congr 1
        simp [List.countP_cons]
      rcases List.mem_append.mp (hre ▸ hs) with hsold | hsr
      · have hner : urEq s r = false := by
          refine Bool.eq_false_iff.mpr fun hc => ?_
          obtain ⟨h1, h2, _⟩ := urEq_iff.mp hc
          exact hpf s hsold ⟨h1, h2⟩
        by_cases hys : urEq s y = true
        · obtain ⟨hsf, hst', _⟩ := urEq_iff.mp hys
          have hsf' : s.from_state = r.to_state := hsf.trans hy1
          have hst2 : s.to_state = r.from_state := hst'.trans hy2
          have holdany : net.reactions.any (fun x => decide (reverses x s)) = false := by
            refine List.any_eq_false.mpr fun x hx hc => ?_
            obtain ⟨h1, h2⟩ := of_decide_eq_true hc
            exact hpf x hx ⟨h1.trans hst2, h2.trans hsf'⟩
          have hold0 : edgeCount net s = 0 := by
            have hc := hCnt s hsold
            rw [holdany] at hc
            simpa using hc
          have hcont : (BiDirReaction.mk r y).contains_reaction (some s) = true := by
            simp [BiDirReaction.contains_reaction, hys]
          have hanyt : net'.reactions.any (fun x => decide (reverses x s)) = true :=
            List.any_eq_true.mpr ⟨r, by rw [hre]; exact List.mem_append_right _ (by simp),
              decide_eq_true ⟨hst2.symm, hsf'.symm⟩⟩
          rw [hec, hold0, hcont, hanyt]
          simp
        · have hys' : urEq s y = false := Bool.eq_false_iff.mpr hys
          have hcont : (BiDirReaction.mk r y).contains_reaction (some s) = false := by
            simp [BiDirReaction.contains_reaction, hner, hys']
          have hnrs : ¬reverses r s := by
            rintro ⟨h1, h2⟩
            have hsy : s = y := huniq s hs ⟨h2.symm, h1.symm⟩
            subst hsy
            exact hys (urEq_self s)
          have hany : net'.reactions.any (fun x => decide (reverses x s)) =
              net.reactions.any (fun x => decide (reverses x s)) := by
            rw [hre, List.any_append]
            have hd : decide (reverses r s) = false := decide_eq_false hnrs
            have hone : List.any [r] (fun x => decide (reverses x s)) = false := by
              simp only [List.any_cons, List.any_nil, Bool.or_false]
              exact hd
            rw [hone, Bool.or_false]
          rw [hec, hcont, hany]
          simpa using hCnt s hsold
      · have hsr' : s = r := by simpa using hsr
        subst hsr'
        have hcont : (BiDirReaction.mk s y).contains_reaction (some s) = true := by
          simp [BiDirReaction.contains_reaction, urEq_self]
        have hanyt : net'.reactions.any (fun x => decide (reverses x s)) = true :=
          List.any_eq_true.mpr ⟨y, hymem, decide_eq_true ⟨hy1, hy2⟩⟩
        rw [hec, hcntr0, hcont, hanyt]
        simp

/-- The empty network satisfies the invariant. -/
theorem Inv_empty : Inv Reactions.empty :=
  ⟨List.Pairwise.nil, fun b hb => absurd hb (List.not_mem_nil b),
   fun r hr => absurd hr (List.not_mem_nil r)⟩

/-- Replaying a pair-distinct sequence from an invariant state preserves the
invariant when it succeeds. -/
theorem replay_Inv {rs : List UnitReaction} {net0 net : Reactions}
    (hInv : Inv net0)
    (hP : (net0.reactions ++ rs).Pairwise (fun a b => ¬samePair a b))
    (h : replayFrom net0 rs = .ok net) :
    Inv net ∧ net.reactions = net0.reactions ++ rs := by
  induction rs generalizing net0 with
  | nil =>
    simp only [replayFrom, Except.ok.injEq] at h
    subst h
    exact ⟨hInv, by simp⟩
  | cons r rs ih =>
    simp only [replayFrom] at h
    cases ha : net0.addReaction r with
    | error e => rw [ha] at h; exact absurd h (by simp)
    | ok net1 =>
      rw [ha] at h
      have hpf : pairFresh net0 r :=
        fun x hx => (List.pairwise_append.mp hP).2.2 x hx r (by simp)
      obtain ⟨hInv1, hre1⟩ := Inv_step hInv hpf ha
      have hlist : net1.reactions ++ rs = net0.reactions ++ (r :: rs) := by
        rw [hre1, List.append_assoc, List.singleton_append]
      have hP1 : (net1.reactions ++ rs).Pairwise (fun a b => ¬samePair a b) := by
        rw [hlist]
        exact hP
      obtain ⟨hI, hR⟩ := ih hInv1 hP1 h
      exact ⟨hI, by rw [hR, hlist]⟩

/-- Replaying a pair- and rate-distinct sequence from an invariant state always
succeeds. -/
theorem replay_ok {rs : List UnitReaction} {net0 : Reactions}
    (hInv : Inv net0)
    (hP : (net0.reactions ++ rs).Pairwise (fun a b => ¬samePair a b))
    (hR : (net0.reactions ++ rs).Pairwise (fun a b => a.rate.name ≠ b.rate.name)) :
    ∃ net, replayFrom net0 rs = .ok net := by
  induction rs generalizing net0 with
  | nil => exact ⟨net0, rfl⟩
  | cons r rs ih =>
    have hpf : pairFresh net0 r :=
      fun x hx => (List.pairwise_append.mp hP).2.2 x hx r (by simp)
    have hrate : rateFresh net0 r :=
      fun x hx => (List.pairwise_append.mp hR).2.2 x hx r (by simp)
    have hedge := not_contained_of_edgeWf hInv.2.1 hrate
    obtain ⟨net1, hok, hre, _⟩ := addReaction_ok_of_fresh net0 r hInv.1 hpf hrate hedge
    obtain ⟨hInv1, hre1⟩ := Inv_step hInv hpf hok
    have hlist : net1.reactions ++ rs = net0.reactions ++ (r :: rs) := by
      rw [hre1, List.append_assoc, List.singleton_append]
    obtain ⟨net, hnet⟩ := ih hInv1 (by rw [hlist]; exact hP) (by rw [hlist]; exact hR)
    refine ⟨net, ?_⟩
    simp only [replayFrom]
    rw [hok]
    exact hnet

/-- C3 counterexample: replaying A→B ("k1"), B→A ("k2"), B→A ("k3") succeeds,
and the reaction A→B then appears as a leg of two distinct BidirectionalEdges,
so the at-most-one-edge part of I3 fails on the code as claimed. -/
theorem C3_counterexample :
    replay parallelReactions =
      .ok ⟨[reacAB, reacBA2, reacBA3], [stA, stB],
        [⟨reacBA2, reacAB⟩, ⟨reacBA3, reacAB⟩]⟩ ∧
    edgeCount ⟨[reacAB, reacBA2, reacBA3], [stA, stB],
        [⟨reacBA2, reacAB⟩, ⟨reacBA3, reacAB⟩]⟩ reacAB = 2 ∧
    ¬edgeCount ⟨[reacAB, reacBA2, reacBA3], [stA, stB],
        [⟨reacBA2, reacAB⟩, ⟨reacBA3, reacAB⟩]⟩ reacAB ≤ 1 :=
  ⟨rfl, rfl, by decide⟩

/-- C3 amended: when additionally no two reactions of the sequence share the
same ordered (fromState, toState) pair, after a successful replay every
registered reaction lies in at most one BidirectionalEdge, and in exactly one
when a reverse reaction is registered. -/
theorem C3_amended_unique_pairing (rs : List UnitReaction) (net : Reactions)
    (hpairs : rs.Pairwise (fun a b => ¬(a.from_state = b.from_state ∧ a.to_state = b.to_state)))
    (h : replay rs = .ok net) :
    ∀ r ∈ net.reactions,
      edgeCount net r ≤ 1 ∧
      ((∃ x ∈ net.reactions, x.from_state = r.to_state ∧ x.to_state = r.from_state) →
        edgeCount net r = 1) := by
  have hP : (Reactions.empty.reactions ++ rs).Pairwise (fun a b => ¬samePair a b) := by
    simpa [Reactions.empty] using hpairs
  obtain ⟨⟨hPw, hWf, hCnt⟩, hre⟩ := replay_Inv Inv_empty hP h
  intro r hr
  have hceq := hCnt r hr
  constructor
  · rw [hceq]
    split
    · exact le_refl 1
    · exact Nat.zero_le 1
  · rintro ⟨x, hx, hx1, hx2⟩
    rw [hceq]
    have hanyt : net.reactions.any (fun z => decide (reverses z r)) = true :=
      List.any_eq_true.mpr ⟨x, hx, decide_eq_true ⟨hx1, hx2⟩⟩
    rw [hanyt]
    rfl

/-- Witness for the amended C3 on R1, R2: the bidirectionally connected reaction
R1 lies in exactly one edge. -/
theorem C3_witness : edgeCount netR1R2 reacEEA = 1 :=
  (C3_amended_unique_pairing [reacEEA, reacEAE] netR1R2 (by decide) rfl reacEEA
      (by decide)).2 ⟨reacEAE, by decide, rfl, rfl⟩

/-- C4: replaying a sequence with pairwise-distinct rate names and
pairwise-distinct ordered (fromState, toState) pairs never raises DuplicateRate
and never raises MultipleMatchingReactions (indeed it succeeds outright). -/
theorem C4_no_spurious_errors (rs : List UnitReaction)
    (h1 : rs.Pairwise (fun a b => a.rate.name ≠ b.rate.name))
    (h2 : rs.Pairwise (fun a b => ¬(a.from_state = b.from_state ∧ a.to_state = b.to_state))) :
    replay rs ≠ .error Err.duplicateRate ∧
    replay rs ≠ .error Err.multipleMatchingReactions := by
  obtain ⟨net, hnet⟩ := replay_ok Inv_empty
    (by simpa [Reactions.empty] using h2) (by simpa [Reactions.empty] using h1)
  have hr : replay rs = .ok net := hnet
  constructor
  · rw [hr]; exact fun hc => by simp at hc
  · rw [hr]; exact fun hc => by simp at hc

/-- Witness for C4: the two-reaction bidirectional sequence replays without the
two errors. -/
theorem C4_witness :
    replay [reacEEA, reacEAE] ≠ .error Err.duplicateRate ∧
    replay [reacEEA, reacEAE] ≠ .error Err.multipleMatchingReactions :=
  C4_no_spurious_errors [reacEEA, reacEAE] (by decide) (by decide)

end KingAltmann
